import Mathlib

/-!
# Verification of the `mne_features` univariate feature kernels

This file gives a shallow embedding, in Lean 4, of the numeric feature
kernels of `src/mne_features/univariate.py` and settles the frozen claims
about them.  A signal matrix is modelled as a `List (List ℚ)` (or
`List (List ℝ)` for the kernels whose numerics involve square roots and
logarithms): one inner list per channel, exactly as the source treats
`data : ndarray (n_channels, n_times)` row by row.

External collaborators of the engine (the power-spectrum estimator, the
delay embedding, the band-pass filter and the wavelet transform, imported
in the source from `utils` / `pywt`) are not part of the repository's
source; kernels consuming them are embedded as functions of the
collaborator's *output* (e.g. a power-spectrum matrix together with its
frequency axis), which is how the spec describes them (§6).
-/

namespace MneFeatures

/-- `np.diff(x)`: successive differences `x[i+1] - x[i]`. -/
def npDiff (xs : List ℚ) : List ℚ :=
  List.zipWith (fun a b => b - a) xs xs.tail

/-- `np.sign` for rationals (`-1`, `0` or `1`). -/
def npSign (q : ℚ) : ℚ :=
  if q < 0 then -1 else if q = 0 then 0 else 1

/-- `compute_mean`, per channel: `np.mean(data, axis=-1)`. -/
def computeMeanCh (xs : List ℚ) : ℚ := xs.sum / xs.length

/-- `compute_mean` on a whole signal matrix. -/
def computeMean (data : List (List ℚ)) : List ℚ := data.map computeMeanCh

/-- `np.ptp`, per channel: maximum minus minimum of the samples. -/
def computePtpCh (xs : List ℚ) : ℚ :=
  match xs with
  | [] => 0
  | h :: t => t.foldl max h - t.foldl min h

/-- `compute_ptp` on a whole signal matrix. -/
def computePtp (data : List (List ℚ)) : List ℚ := data.map computePtpCh

/-- `compute_zero_crossings`, per channel:
`np.sum(np.diff(np.sign(x)) != 0)`. -/
def computeZeroCrossingsCh (xs : List ℚ) : ℕ :=
  ((npDiff (xs.map npSign)).filter (fun d => d ≠ 0)).length

/-- `compute_zero_crossings` on a whole signal matrix. -/
def computeZeroCrossings (data : List (List ℚ)) : List ℕ :=
  data.map computeZeroCrossingsCh

/-- `compute_line_length`, per channel:
`np.sum(np.abs(np.diff(x)))`. -/
def computeLineLengthCh (xs : List ℚ) : ℚ :=
  ((npDiff xs).map (fun d => |d|)).sum

/-- `compute_line_length` on a whole signal matrix. -/
def computeLineLength (data : List (List ℚ)) : List ℚ :=
  data.map computeLineLengthCh

/-! ### The end-to-end input of claim C1:
channel 0 all zeros, channel 1 the ramp `0, 1, ..., 255`. -/

/-- The ramp channel `0, 1, ..., n-1` as rationals. -/
def rampQ (n : ℕ) : List ℚ := (List.range n).map (fun (k : ℕ) => (k : ℚ))

/-- The zero channel of length `n`. -/
def zerosQ (n : ℕ) : List ℚ := List.replicate n 0

/-- The 2-channel, 256-sample synthetic input of the end-to-end scenario. -/
def dataC1 : List (List ℚ) := [zerosQ 256, rampQ 256]

/-! ### Helper lemmas about the ramp and zero channels -/

lemma rampQ_eq_range' (n : ℕ) :
    rampQ n = (List.range' 0 n).map (fun (k : ℕ) => (k : ℚ)) := by
  simp [rampQ, List.range_eq_range']

lemma length_rampQ (n : ℕ) : (rampQ n).length = n := by
  simp [rampQ]

lemma sum_rampQ (n : ℕ) : (rampQ n).sum = (n * (n - 1) : ℚ) / 2 := by
  induction n with
  | zero => simp [rampQ]
  | succ m ih =>
    rcases Nat.eq_zero_or_pos m with hm | hm
    · subst hm; simp [rampQ, List.range_succ]
    · have h1 : rampQ (m + 1) = rampQ m ++ [(m : ℚ)] := by
        simp [rampQ, List.range_succ]
      rw [h1, List.sum_append, ih]
      simp only [List.sum_cons, List.sum_nil]
      push_cast
      ring

lemma npDiff_cons_cons (a b : ℚ) (t : List ℚ) :
    npDiff (a :: b :: t) = (b - a) :: npDiff (b :: t) := rfl

lemma npDiff_range'_cast (s n : ℕ) :
    npDiff ((List.range' s n).map (fun (k : ℕ) => (k : ℚ)))
      = List.replicate (n - 1) 1 := by
  induction n generalizing s with
  | zero => simp [npDiff]
  | succ m ih =>
    rcases m with _ | m'
    · simp [npDiff]
    · rw [List.range'_succ, List.range'_succ]
      simp only [List.map_cons]
      rw [npDiff_cons_cons]
      have h := ih (s + 1)
      rw [List.range'_succ, List.map_cons] at h
      rw [h]
      have : ((s + 1 : ℕ) : ℚ) - (s : ℕ) = 1 := by push_cast; ring
      rw [this]
      rfl

lemma npDiff_rampQ (n : ℕ) :
    npDiff (rampQ n) = List.replicate (n - 1) 1 := by
  rw [rampQ_eq_range', npDiff_range'_cast]

lemma npDiff_replicate (n : ℕ) (a : ℚ) :
    npDiff (List.replicate n a) = List.replicate (n - 1) 0 := by
  induction n with
  | zero => simp [npDiff]
  | succ m ih =>
    rcases m with _ | m'
    · simp [npDiff]
    · have h2 : List.replicate (m' + 1) a = a :: List.replicate m' a := rfl
      rw [show List.replicate (m' + 2) a = a :: List.replicate (m' + 1) a
          from rfl, h2, npDiff_cons_cons, ← h2, ih]
      simp only [sub_self]
      rfl

lemma foldl_max_range'_cast (n : ℕ) :
    ∀ (s : ℕ) (a : ℚ), ((List.range' s n).map (fun (k : ℕ) => (k : ℚ))).foldl max a
      = if n = 0 then a else max a ((s + n - 1 : ℕ) : ℚ) := by
  induction n with
  | zero => intro s a; simp
  | succ m ih =>
    intro s a
    rw [List.range'_succ, List.map_cons, List.foldl_cons, ih (s + 1)]
    rcases Nat.eq_zero_or_pos m with hm | hm
    · subst hm; simp
    · have h2 : s + 1 + m - 1 = s + (m + 1) - 1 := by omega
      rw [if_neg (by omega : ¬ m = 0), if_neg (by omega : ¬ m + 1 = 0), h2,
        max_assoc]
      congr 1
      rw [max_eq_right]
      have : s ≤ s + (m + 1) - 1 := by omega
      exact_mod_cast this

lemma foldl_min_range'_cast (n : ℕ) :
    ∀ (s : ℕ) (a : ℚ), ((List.range' s n).map (fun (k : ℕ) => (k : ℚ))).foldl min a
      = if n = 0 then a else min a (s : ℚ) := by
  induction n with
  | zero => intro s a; simp
  | succ m ih =>
    intro s a
    rw [List.range'_succ, List.map_cons, List.foldl_cons, ih (s + 1)]
    rcases Nat.eq_zero_or_pos m with hm | hm
    · subst hm; simp
    · rw [if_neg (by omega : ¬ m = 0), if_neg (by omega : ¬ m + 1 = 0),
        min_assoc]
      congr 1
      rw [min_eq_left]
      have : s ≤ s + 1 := by omega
      exact_mod_cast this

lemma map_npSign_rampQ (n : ℕ) :
    (rampQ (n + 1)).map npSign = 0 :: List.replicate n 1 := by
  have h0 : rampQ (n + 1)
      = (0 : ℚ) :: (List.range' 1 n).map (fun (k : ℕ) => (k : ℚ)) := by
    rw [rampQ_eq_range', List.range'_succ, List.map_cons]
    norm_num
  rw [h0, List.map_cons]
  have hs0 : npSign 0 = 0 := by simp [npSign]
  rw [hs0]
  congr 1
  rw [List.map_map, List.eq_replicate_iff]
  constructor
  · simp
  · intro b hb
    rcases List.mem_map.mp hb with ⟨k, hk, hbk⟩
    have hk1 : 1 ≤ k := (List.mem_range'_1.mp hk).1
    have hkpos : (0 : ℚ) < (k : ℚ) := by exact_mod_cast hk1
    simp only [Function.comp_apply] at hbk
    rw [← hbk]
    simp [npSign, not_lt.mpr hkpos.le, hkpos.ne']

lemma rampQ_cons (n : ℕ) :
    rampQ (n + 1) = (0 : ℚ) :: (List.range' 1 n).map (fun (k : ℕ) => (k : ℚ)) := by
  rw [rampQ_eq_range', List.range'_succ, List.map_cons]
  norm_num

lemma foldl_max_zeros (n : ℕ) :
    (List.replicate n (0 : ℚ)).foldl max 0 = 0 := by
  induction n with
  | zero => rfl
  | succ m ih => simpa using ih

lemma foldl_min_zeros (n : ℕ) :
    (List.replicate n (0 : ℚ)).foldl min 0 = 0 := by
  induction n with
  | zero => rfl
  | succ m ih => simpa using ih

lemma computePtpCh_cons (h : ℚ) (t : List ℚ) :
    computePtpCh (h :: t) = t.foldl max h - t.foldl min h := rfl

/-! ### Per-channel evaluations for the C1 scenario -/

lemma meanCh_zeros : computeMeanCh (zerosQ 256) = 0 := by
  rw [computeMeanCh, zerosQ, List.sum_replicate, List.length_replicate]
  simp

lemma meanCh_ramp : computeMeanCh (rampQ 256) = 255 / 2 := by
  rw [computeMeanCh, sum_rampQ, length_rampQ]
  norm_num

lemma ptpCh_zeros : computePtpCh (zerosQ 256) = 0 := by
  have h : zerosQ 256 = (0 : ℚ) :: List.replicate 255 0 := rfl
  rw [h, computePtpCh_cons, foldl_max_zeros, foldl_min_zeros, sub_zero]

lemma ptpCh_ramp : computePtpCh (rampQ 256) = 255 := by
  rw [show (256 : ℕ) = 255 + 1 from rfl, rampQ_cons, computePtpCh_cons,
    foldl_max_range'_cast, foldl_min_range'_cast]
  norm_num

lemma zeroCrossCh_zeros : computeZeroCrossingsCh (zerosQ 256) = 0 := by
  have hsgn : npSign 0 = 0 := by simp [npSign]
  rw [computeZeroCrossingsCh, zerosQ, List.map_replicate, hsgn,
    npDiff_replicate, List.filter_replicate_of_neg (by simp)]
  rfl

lemma zeroCrossCh_ramp : computeZeroCrossingsCh (rampQ 256) = 1 := by
  rw [computeZeroCrossingsCh, show (256 : ℕ) = 255 + 1 from rfl,
    map_npSign_rampQ]
  have hrep : List.replicate 255 (1 : ℚ) = 1 :: List.replicate 254 1 := rfl
  rw [hrep, npDiff_cons_cons, ← hrep, npDiff_replicate,
    show (1 : ℚ) - 0 = 1 by norm_num,
    List.filter_cons_of_pos (by simp),
    List.filter_replicate_of_neg (by simp)]
  rfl

lemma lineLenCh_zeros : computeLineLengthCh (zerosQ 256) = 0 := by
  rw [computeLineLengthCh, zerosQ, npDiff_replicate, List.map_replicate,
    List.sum_replicate]
  simp

lemma lineLenCh_ramp : computeLineLengthCh (rampQ 256) = 255 := by
  rw [computeLineLengthCh, npDiff_rampQ, List.map_replicate,
    List.sum_replicate, show |(1 : ℚ)| = 1 from abs_one, nsmul_eq_mul]
  norm_num

/-- **C1, counterexample.**  On the 2-channel, 256-sample input whose
channel 0 is all zeros and whose channel 1 is the ramp `0, 1, ..., 255`,
the `zero_cross` kernel (`compute_zero_crossings`) does *not* return
`[0, 0]`: the sign step from `sign(0) = 0` to `sign(1) = 1` at the start
of the ramp is counted, so the result is `[0, 1]`. -/
theorem C1_counterexample :
    computeZeroCrossings dataC1 ≠ [0, 0] := by
  rw [computeZeroCrossings, dataC1]
  simp only [List.map_cons, List.map_nil, zeroCrossCh_zeros, zeroCrossCh_ramp]
  simp

/-- **C1, amended.**  On the 2-channel, 256-sample input whose channel 0 is
all zeros and whose channel 1 is the ramp `0, 1, ..., 255`, the kernels
`mean`, `ptp_amplitude`, `zero_cross` and `line_len` return exactly
`[0, 127.5]`, `[0, 255]`, `[0, 1]` and `[0, 255]` respectively (the
zero-crossing count of the ramp is `1`, not `0`, because the first
sign difference `sign(1) - sign(0) = 1` is nonzero). -/
theorem C1_amended :
    computeMean dataC1 = [0, 255 / 2] ∧
    computePtp dataC1 = [0, 255] ∧
    computeZeroCrossings dataC1 = [0, 1] ∧
    computeLineLength dataC1 = [0, 255] := by
  refine ⟨?_, ?_, ?_, ?_⟩ <;>
    simp only [computeMean, computePtp, computeZeroCrossings,
      computeLineLength, dataC1, List.map_cons, List.map_nil,
      meanCh_zeros, meanCh_ramp, ptpCh_zeros, ptpCh_ramp,
      zeroCrossCh_zeros, zeroCrossCh_ramp, lineLenCh_zeros, lineLenCh_ramp]

/-! ## C2: spectral entropy (`compute_spect_entropy`)

The power spectrum `ps` is produced by the external `power_spectrum`
utility (§6); the kernel is embedded as a function of that output, one
row per channel. -/

/-- Per-channel body of `compute_spect_entropy`:
`m = np.sum(ps, axis=-1)`, `ps_norm = ps[:, 1:] / m`,
`-np.sum(ps_norm * np.log2(ps_norm))`.  Note that the divisor `m` is the
sum over *all* bins, DC included. -/
noncomputable def spectEntropyCh (ps : List ℝ) : ℝ :=
  -(((ps.drop 1).map (fun p => p / ps.sum)).map
      (fun x => x * Real.logb 2 x)).sum

/-- `compute_spect_entropy` on the whole power-spectrum matrix. -/
noncomputable def computeSpectEntropy (ps : List (List ℝ)) : List ℝ :=
  ps.map spectEntropyCh

/-- The claim's version of the spectral entropy: the DC bin is excluded
from the normalization sum as well, so the divisor is `(ps.drop 1).sum`. -/
noncomputable def claimSpectEntropyCh (ps : List ℝ) : ℝ :=
  -(((ps.drop 1).map (fun p => p / (ps.drop 1).sum)).map
      (fun x => x * Real.logb 2 x)).sum

/-- Reference form of the amended description: Shannon entropy (base 2) of
`ps[i] / T` over the non-DC indices `i = 1, ..., n-1`, where `T` is the
total power over **all** bins (index `0` included), written with indexed
`Finset` sums. -/
noncomputable def amendedSpectEntropyCh (ps : List ℝ) : ℝ :=
  -(∑ i ∈ Finset.range (ps.length - 1),
      (ps.getD (i + 1) 0 / ∑ j ∈ Finset.range ps.length, ps.getD j 0) *
        Real.logb 2
          (ps.getD (i + 1) 0 / ∑ j ∈ Finset.range ps.length, ps.getD j 0))

/-- A list sum of mapped values as an indexed `Finset.range` sum. -/
lemma sum_map_eq_sum_range {M : Type*} [AddCommMonoid M] {α : Type*}
    (f : α → M) (d : α) (l : List α) :
    (l.map f).sum = ∑ i ∈ Finset.range l.length, f (l.getD i d) := by
  induction l with
  | nil => simp
  | cons a t ih =>
    rw [List.map_cons, List.sum_cons, ih, List.length_cons,
      Finset.sum_range_succ']
    simp [add_comm]

lemma sum_eq_sum_range {M : Type*} [AddCommMonoid M] (l : List M) :
    l.sum = ∑ i ∈ Finset.range l.length, l.getD i 0 := by
  have h := sum_map_eq_sum_range (id : M → M) 0 l
  simpa using h

lemma log2_8_lt_log2_9 : (3 : ℝ) * Real.log 2 < 2 * Real.log 3 := by
  have h8 : Real.log 8 = 3 * Real.log 2 := by
    rw [show (8 : ℝ) = 2 ^ (3 : ℕ) by norm_num, Real.log_pow]
    push_cast; ring
  have h9 : Real.log 9 = 2 * Real.log 3 := by
    rw [show (9 : ℝ) = 3 ^ (2 : ℕ) by norm_num, Real.log_pow]
    push_cast; ring
  rw [← h8, ← h9]
  exact Real.log_lt_log (by norm_num) (by norm_num)

/-- **C2, counterexample.**  On the single-channel power spectrum
`[1, 1, 1]`, the code's spectral entropy (divisor = total power `3`,
DC bin included) differs from the claim's version (divisor = non-DC power
`2`): the code gives `(2/3)·log₂ 3 > 1` while the claim's version gives
exactly `1`. -/
theorem C2_counterexample :
    spectEntropyCh [1, 1, 1] ≠ claimSpectEntropyCh [1, 1, 1] := by
  have hcode : spectEntropyCh [1, 1, 1] = -(2 * ((1 / 3) * Real.logb 2 (1 / 3))) := by
    simp only [spectEntropyCh, List.drop_succ_cons, List.drop_zero,
      List.sum_cons, List.sum_nil, List.map_cons, List.map_nil]
    ring_nf
  have hclaim : claimSpectEntropyCh [1, 1, 1] = -(2 * ((1 / 2) * Real.logb 2 (1 / 2))) := by
    simp only [claimSpectEntropyCh, List.drop_succ_cons, List.drop_zero,
      List.sum_cons, List.sum_nil, List.map_cons, List.map_nil]
    ring_nf
  rw [hcode, hclaim]
  have hlog2 : (0 : ℝ) < Real.log 2 := Real.log_pos (by norm_num)
  have h13 : Real.logb 2 (1 / 3) = -Real.logb 2 3 := by
    rw [one_div, Real.logb_inv]
  have h12 : Real.logb 2 (1 / 2) = -1 := by
    rw [one_div, Real.logb_inv, Real.logb_self_eq_one (by norm_num : (1:ℝ) < 2)]
  rw [h13, h12]
  intro h
  have h2 : (2 / 3 : ℝ) * Real.logb 2 3 = 1 := by linarith
  rw [Real.logb] at h2
  field_simp at h2
  linarith [log2_8_lt_log2_9]

/-- **C2, amended.**  For every power-spectrum row, `compute_spect_entropy`
returns the base-2 Shannon entropy of the power spectrum normalized by the
**total** power over all bins (the DC bin is included in the normalization
divisor); only the entropy sum excludes the DC bin (index 0). -/
theorem C2_amended (ps : List ℝ) :
    spectEntropyCh ps = amendedSpectEntropyCh ps := by
  rw [spectEntropyCh, amendedSpectEntropyCh, List.map_map,
    sum_map_eq_sum_range _ (0 : ℝ), List.length_drop]
  rw [sum_eq_sum_range ps]
  congr 1
  refine Finset.sum_congr rfl (fun i hi => ?_)
  have hlt : i < ps.length - 1 := Finset.mem_range.mp hi
  have hgd : (ps.drop 1).getD i 0 = ps.getD (1 + i) 0 := by
    rcases ps with _ | ⟨a, t⟩
    · simp at hlt
    · simp only [List.drop_succ_cons, List.drop_zero]
      have : 1 + i = i + 1 := by omega
      rw [this]
      rfl
  simp only [Function.comp_apply, hgd, add_comm 1 i]

/-! ## C3: band power (`compute_power_spectrum_freq_bands`)

The kernel consumes the external `power_spectrum` output `(ps, freqs)`;
it is embedded as a function of that pair together with the configured
band edges. -/

/-- `np.digitize(f, bins)` for an increasing `bins` (the source's usage):
the number of bin edges `≤ f`, i.e. the index `i` with
`bins[i-1] ≤ f < bins[i]`. -/
def npDigitize (f : ℚ) (bins : List ℚ) : ℕ :=
  (bins.filter (fun b => b ≤ f)).length

/-- Per-channel body of `compute_power_spectrum_freq_bands`: for
`j = 1, ..., n_freqs - 1`, sum the power of the bins whose digitized index
equals `j`; if `normalize`, divide by the channel's total power. -/
def powFreqBandsCh (freqs bands : List ℚ) (normalize : Bool)
    (psRow : List ℚ) : List ℚ :=
  let vals := (List.range (bands.length - 1)).map (fun j =>
    (((psRow.zip freqs).filter
        (fun pf => npDigitize pf.2 bands = j + 1)).map Prod.fst).sum)
  if normalize then vals.map (fun v => v / psRow.sum) else vals

/-- `compute_power_spectrum_freq_bands`: channel-major concatenation
(`ravel`) of the per-channel band vectors. -/
def computePowerSpectrumFreqBands (freqs bands : List ℚ) (normalize : Bool)
    (ps : List (List ℚ)) : List ℚ :=
  (ps.map (powFreqBandsCh freqs bands normalize)).flatten

/-- The power of a channel that falls inside the configured bands: the sum
over the spectral bins whose digitized index lies in `1, ..., n_freqs - 1`
(i.e. inside `[bands[0], bands[last])` for increasing bands). -/
def coveredBandPower (freqs bands : List ℚ) (psRow : List ℚ) : ℚ :=
  (((psRow.zip freqs).filter
      (fun pf => 1 ≤ npDigitize pf.2 bands ∧
        npDigitize pf.2 bands ≤ bands.length - 1)).map Prod.fst).sum

lemma list_range_map_sum {M : Type*} [AddCommMonoid M] (n : ℕ) (f : ℕ → M) :
    ((List.range n).map f).sum = ∑ j ∈ Finset.range n, f j := by
  induction n with
  | zero => simp
  | succ m ih =>
    rw [List.range_succ, List.map_append, List.sum_append,
      Finset.sum_range_succ, ih]
    simp

lemma sum_filter_digitize_eq (bands : List ℚ) (B : ℕ)
    (L : List (ℚ × ℚ)) :
    (∑ j ∈ Finset.range B,
        ((L.filter (fun pf => npDigitize pf.2 bands = j + 1)).map Prod.fst).sum)
      = ((L.filter (fun pf => 1 ≤ npDigitize pf.2 bands ∧
          npDigitize pf.2 bands ≤ B)).map Prod.fst).sum := by
  induction L with
  | nil => simp
  | cons p t ih =>
    by_cases hp : 1 ≤ npDigitize p.2 bands ∧ npDigitize p.2 bands ≤ B
    · rw [List.filter_cons_of_pos (by simpa using hp), List.map_cons,
        List.sum_cons, ← ih]
      obtain ⟨hp1, hp2⟩ := hp
      have hsplit : ∀ j ∈ Finset.range B,
          ((List.filter (fun pf => decide (npDigitize pf.2 bands = j + 1)) (p :: t)).map
            Prod.fst).sum
          = (if npDigitize p.2 bands = j + 1 then p.1 else 0)
            + ((List.filter (fun pf => decide (npDigitize pf.2 bands = j + 1)) t).map
                Prod.fst).sum := by
        intro j _
        by_cases hj : npDigitize p.2 bands = j + 1
        · rw [List.filter_cons_of_pos (by simpa using hj), List.map_cons,
            List.sum_cons, if_pos hj]
        · rw [List.filter_cons_of_neg (by simpa using hj), if_neg hj, zero_add]
      rw [Finset.sum_congr rfl hsplit, Finset.sum_add_distrib]
      congr 1
      have hmem : npDigitize p.2 bands - 1 ∈ Finset.range B := by
        rw [Finset.mem_range]; omega
      rw [Finset.sum_eq_single_of_mem _ hmem]
      · rw [if_pos (by omega)]
      · intro j _ hj
        rw [if_neg (by omega)]
    · rw [List.filter_cons_of_neg (by simpa using hp), ← ih]
      refine Finset.sum_congr rfl (fun j hj => ?_)
      have hjB : j < B := Finset.mem_range.mp hj
      rw [List.filter_cons_of_neg]
      simp only [decide_eq_true_eq]
      omega

/-- **C3, counterexample.**  With frequency axis `[0, 1]`, power spectrum
`[[1, 1]]` (one channel) and bands `[1/2, 4]`, the DC bin at frequency `0`
lies below the first band edge, so with `normalize = true` the channel's
band values sum to `1/2`, not `1`. -/
theorem C3_counterexample :
    (computePowerSpectrumFreqBands [0, 1] [1/2, 4] true [[1, 1]]).sum ≠ 1 := by
  have hd0 : npDigitize 0 [1/2, 4] = 0 := by
    rw [npDigitize]
    norm_num
  have hd1 : npDigitize 1 [1/2, 4] = 1 := by
    rw [npDigitize, List.filter_cons_of_pos (by norm_num),
      List.filter_cons_of_neg (by norm_num)]
    rfl
  simp only [computePowerSpectrumFreqBands, powFreqBandsCh, List.map_cons,
    List.map_nil, List.flatten]
  norm_num [List.range_succ, List.zip, List.zipWith, hd0, hd1]

/-- **C3, amended.**  The output of `compute_power_spectrum_freq_bands`
always has length `n_channels * (n_freqs - 1)`; with `normalize = true`
the band values of any channel sum to the channel's in-band power divided
by its **total** power (so they sum to `1` only when all spectral power
falls inside the configured bands, and to less than `1` otherwise, e.g.
when the DC bin lies below the first band edge). -/
theorem C3_amended (freqs bands : List ℚ) (normalize : Bool)
    (ps : List (List ℚ)) (psRow : List ℚ) :
    (computePowerSpectrumFreqBands freqs bands normalize ps).length
        = ps.length * (bands.length - 1) ∧
    (powFreqBandsCh freqs bands true psRow).sum
        = coveredBandPower freqs bands psRow / psRow.sum := by
  constructor
  · rw [computePowerSpectrumFreqBands, List.length_flatten, List.map_map]
    have hlen : ∀ row : List ℚ,
        (powFreqBandsCh freqs bands normalize row).length
          = bands.length - 1 := by
      intro row
      rw [powFreqBandsCh]
      cases normalize <;> simp
    calc ((ps.map (List.length ∘ powFreqBandsCh freqs bands normalize)).sum)
        = ((ps.map (fun _ => bands.length - 1)).sum) := by
          refine congrArg List.sum (List.map_congr_left (fun row _ => ?_))
          exact hlen row
      _ = ps.length * (bands.length - 1) := by
          rw [List.map_const', List.sum_replicate, smul_eq_mul]
  · rw [powFreqBandsCh, coveredBandPower]
    simp only [if_pos rfl, Bool.true_eq, if_true]
    have hdivsum : ∀ (l : List ℚ) (T : ℚ),
        (l.map (fun v => v / T)).sum = l.sum / T := by
      intro l T
      simp only [div_eq_mul_inv]
      have h := List.sum_map_mul_right l id T⁻¹
      simpa using h
    rw [hdivsum]
    congr 1
    rw [list_range_map_sum, sum_filter_digitize_eq]

/-! ## C4: wavelet coefficient energy (`compute_wavelet_coef_energy`)

The discrete wavelet transform itself is supplied by the external
`pywt.wavedec` utility.  Its documented output convention for a
decomposition to level `levdec` is the coefficient list
`[cA_levdec, cD_levdec, cD_(levdec-1), ..., cD_1]`: the approximation at
the deepest (coarsest) level first, then the detail coefficients from the
coarsest retained level down to the finest (level 1) last.  The kernel is
embedded per channel as a function of that coefficient list, with
`levdec = coefs.length - 1`. -/

/-- Per-channel body of `compute_wavelet_coef_energy`: for
`l = 0, ..., levdec - 1`, `wavelet_energy[l] = np.sum(coefs[levdec - l] ** 2)`. -/
def waveletCoefEnergyCh (coefs : List (List ℚ)) : List ℚ :=
  let levdec := coefs.length - 1
  (List.range levdec).map (fun l =>
    ((coefs.getD (levdec - l) []).map (fun c => c ^ 2)).sum)

/-- The claim's ordering: the `l`-th output is the squared-coefficient sum
of the coarsest retained detail level onward, i.e. of `coefs[l + 1]`
(`coefs[1] = cD_levdec` is the coarsest detail level, `coefs[levdec] = cD_1`
the finest). -/
def claimWaveletEnergyCh (coefs : List (List ℚ)) : List ℚ :=
  let levdec := coefs.length - 1
  (List.range levdec).map (fun l =>
    ((coefs.getD (l + 1) []).map (fun c => c ^ 2)).sum)

/-- **C4, counterexample.**  For the 2-level decomposition
`[cA_2, cD_2, cD_1] = [[0], [1], [2]]`, the kernel returns `[4, 1]`
(finest detail level `cD_1` first), not the coarsest-to-finest ordering
`[1, 4]` stated by the claim. -/
theorem C4_counterexample :
    waveletCoefEnergyCh [[0], [1], [2]] ≠ claimWaveletEnergyCh [[0], [1], [2]]
      ∧ waveletCoefEnergyCh [[0], [1], [2]] = [4, 1] := by
  have h1 : waveletCoefEnergyCh [[0], [1], [2]] = [4, 1] := by
    norm_num [waveletCoefEnergyCh, List.range_succ]
  have h2 : claimWaveletEnergyCh [[0], [1], [2]] = [1, 4] := by
    norm_num [claimWaveletEnergyCh, List.range_succ]
  refine ⟨?_, h1⟩
  rw [h1, h2]
  intro h
  have := List.head_eq_of_cons_eq h
  norm_num at this

/-- **C4, amended.**  `compute_wavelet_coef_energy` returns, per channel,
`levdec` sums of squared detail coefficients (the deepest approximation
`coefs[0]` is never read), ordered from the **finest** decomposition level
to the **coarsest** retained one — i.e. exactly the reverse of the
coarsest-to-finest ordering stated by the claim. -/
theorem C4_amended (coefs : List (List ℚ)) :
    waveletCoefEnergyCh coefs = (claimWaveletEnergyCh coefs).reverse := by
  rw [waveletCoefEnergyCh, claimWaveletEnergyCh]
  apply List.ext_getElem
  · simp
  · intro i h1 h2
    have hlen : i < coefs.length - 1 := by simpa using h1
    rw [List.getElem_reverse]
    simp only [List.getElem_map, List.getElem_range, List.length_map,
      List.length_range, List.length_reverse]
    have hidx : coefs.length - 1 - i = coefs.length - 1 - 1 - i + 1 := by
      omega
    rw [← hidx]

/-! ## C5: time-domain Hjorth parameters
(`compute_hjorth_mobility`, `compute_hjorth_complexity`)

These kernels work on real signals with `np.std(..., ddof=1)`; they are
embedded over `ℝ`. -/

/-- `np.diff` over the reals. -/
def npDiffR (xs : List ℝ) : List ℝ :=
  List.zipWith (fun a b => b - a) xs xs.tail

/-- `np.mean` over the reals. -/
noncomputable def meanR (xs : List ℝ) : ℝ := xs.sum / xs.length

/-- `np.var(xs, ddof=1)`: unbiased variance, divisor `n - 1`. -/
noncomputable def varUnbiased (xs : List ℝ) : ℝ :=
  ((xs.map (fun v => (v - meanR xs) ^ 2)).sum) / ((xs.length : ℝ) - 1)

/-- `np.std(xs, ddof=1)`: unbiased standard deviation. -/
noncomputable def stdUnbiased (xs : List ℝ) : ℝ :=
  Real.sqrt (varUnbiased xs)

/-- Per-channel body of `compute_hjorth_mobility`:
`x = np.insert(data, 0, 0)`, `dx = np.diff(x)`,
`np.std(dx, ddof=1) / np.std(x, ddof=1)`.  Note that the denominator is
the standard deviation of the zero-padded signal `x`, not of the raw
channel. -/
noncomputable def hjorthMobilityCh (ch : List ℝ) : ℝ :=
  stdUnbiased (npDiffR (0 :: ch)) / stdUnbiased (0 :: ch)

/-- `compute_hjorth_mobility` on a whole signal matrix. -/
noncomputable def computeHjorthMobility (data : List (List ℝ)) : List ℝ :=
  data.map hjorthMobilityCh

/-- Per-channel body of `compute_hjorth_complexity`: the mobility kernel
applied to `dx = np.diff(np.insert(data, 0, 0))` divided by the mobility
kernel applied to the raw channel. -/
noncomputable def hjorthComplexityCh (ch : List ℝ) : ℝ :=
  hjorthMobilityCh (npDiffR (0 :: ch)) / hjorthMobilityCh ch

/-- `compute_hjorth_complexity` on a whole signal matrix. -/
noncomputable def computeHjorthComplexity (data : List (List ℝ)) : List ℝ :=
  data.map hjorthComplexityCh

/-- The claim's version of the mobility: unbiased std of the first
difference of the zero-padded signal divided by the unbiased std of the
**raw** signal. -/
noncomputable def claimHjorthMobilityCh (ch : List ℝ) : ℝ :=
  stdUnbiased (npDiffR (0 :: ch)) / stdUnbiased ch

/-- Unbiased standard deviation written with indexed `Finset` sums, the
reference formulation used in the amended statement. -/
noncomputable def specStd (xs : List ℝ) : ℝ :=
  Real.sqrt ((∑ i ∈ Finset.range xs.length,
      (xs.getD i 0 - (∑ j ∈ Finset.range xs.length, xs.getD j 0) /
        xs.length) ^ 2) / ((xs.length : ℝ) - 1))

lemma stdUnbiased_eq_specStd (xs : List ℝ) : stdUnbiased xs = specStd xs := by
  rw [stdUnbiased, specStd, varUnbiased, meanR,
    sum_map_eq_sum_range _ (0 : ℝ), sum_eq_sum_range xs]

lemma varUnbiased_pair (a b : ℝ) :
    varUnbiased [a, b] = (a - b) ^ 2 / 2 := by
  simp only [varUnbiased, meanR, List.sum_cons, List.sum_nil, List.map_cons,
    List.map_nil, List.length_cons, List.length_nil]
  push_cast
  ring

/-- **C5, counterexample.**  On the single-sample-pair channel `[1, 3]`,
the mobility kernel divides by `std([0, 1, 3], ddof=1) = √(7/3)` (the
zero-padded signal), whereas the claim's formula divides by
`std([1, 3], ddof=1) = √2`; the two values differ. -/
theorem C5_counterexample :
    hjorthMobilityCh [1, 3] ≠ claimHjorthMobilityCh [1, 3] := by
  have hdx : npDiffR (0 :: [(1 : ℝ), 3]) = [1, 2] := by
    simp only [npDiffR, List.tail_cons, List.zipWith]
    norm_num
  have hv1 : varUnbiased [(1 : ℝ), 2] = 1 / 2 := by
    rw [varUnbiased_pair]; norm_num
  have hv2 : varUnbiased [(0 : ℝ), 1, 3] = 7 / 3 := by
    simp only [varUnbiased, meanR, List.sum_cons, List.sum_nil,
      List.map_cons, List.map_nil, List.length_cons, List.length_nil]
    norm_num
  have hv3 : varUnbiased [(1 : ℝ), 3] = 2 := by
    rw [varUnbiased_pair]; norm_num
  rw [hjorthMobilityCh, claimHjorthMobilityCh, hdx, stdUnbiased, stdUnbiased,
    stdUnbiased, hv1, hv2, hv3]
  have h12 : (0 : ℝ) < Real.sqrt (1 / 2) := Real.sqrt_pos.mpr (by norm_num)
  have h73 : (0 : ℝ) < Real.sqrt (7 / 3) := Real.sqrt_pos.mpr (by norm_num)
  have h2 : (0 : ℝ) < Real.sqrt 2 := Real.sqrt_pos.mpr (by norm_num)
  intro h
  rw [div_eq_div_iff h73.ne' h2.ne'] at h
  have hsq : Real.sqrt 2 = Real.sqrt (7 / 3) :=
    mul_left_cancel₀ h12.ne' h
  rw [Real.sqrt_inj (by norm_num) (by norm_num)] at hsq
  norm_num at hsq

/-- **C5, amended.**  `compute_hjorth_mobility` returns, per channel, the
unbiased standard deviation of the first difference of the
start-zero-padded signal divided by the unbiased standard deviation of the
**zero-padded** signal (not of the raw signal); `compute_hjorth_complexity`
returns the mobility kernel applied to that first difference divided by
the mobility kernel applied to the signal. -/
theorem C5_amended (ch : List ℝ) :
    hjorthMobilityCh ch = specStd (npDiffR (0 :: ch)) / specStd (0 :: ch) ∧
    hjorthComplexityCh ch
      = hjorthMobilityCh (npDiffR (0 :: ch)) / hjorthMobilityCh ch := by
  constructor
  · rw [hjorthMobilityCh, stdUnbiased_eq_specStd, stdUnbiased_eq_specStd]
  · rw [hjorthComplexityCh]

/-! ## C6: sample entropy (`compute_samp_entropy`) -/

/-- Mean of squares, `s = (Σ x²)/n` — the quantity whose square root is
the code's normalization divisor (note: the mean is *not* subtracted). -/
noncomputable def meanSq (xs : List ℝ) : ℝ :=
  (xs.map (fun v => v ^ 2)).sum / xs.length

/-- The code's normalization scale: `sqrt((Σ x²)/n)`, the root mean
square of the raw channel. -/
noncomputable def rmsR (xs : List ℝ) : ℝ := Real.sqrt (meanSq xs)

/-- The transformed channel of `compute_samp_entropy`:
`x_new[j] = (x[j] - m) / s` with `m` the mean and `s = rmsR`. -/
noncomputable def sampXNew (xs : List ℝ) : List ℝ :=
  xs.map (fun v => (v - meanR xs) / rmsR xs)

/-- Population variance (divisor `n`). -/
noncomputable def popVar (xs : List ℝ) : ℝ :=
  ((xs.map (fun v => (v - meanR xs) ^ 2)).sum) / xs.length

/-- The six running match counters of `compute_samp_entropy`
(`a[0..2]`, `b[0..2]`, 0-indexed as in the source). -/
structure SampCounts where
  a0 : ℕ
  a1 : ℕ
  a2 : ℕ
  b0 : ℕ
  b1 : ℕ
  b2 : ℕ

/-- The counter increments performed when samples `i` and `j` match with
current run length `run`: `for k in range(min(mm, run)): a[k] += 1;
if j < n - 1: b[k] += 1` with `mm = 3`. -/
def sampMatchUpdate (n j run : ℕ) (c : SampCounts) : SampCounts :=
  let bInc := if j < n - 1 then 1 else 0
  { a0 := c.a0 + 1,
    a1 := c.a1 + (if 2 ≤ min 3 run then 1 else 0),
    a2 := c.a2 + (if 3 ≤ min 3 run then 1 else 0),
    b0 := c.b0 + bInc,
    b1 := c.b1 + (if 2 ≤ min 3 run then bInc else 0),
    b2 := c.b2 + (if 3 ≤ min 3 run then bInc else 0) }

/-- Inner loop of the sweep for a fixed `i`: walk `jj = 0, ..., nj - 1`
(`j = jj + i + 1`), update the run lengths (using the previous outer
iteration's `lastrun`) and the counters; tolerance `r = 0.2`. -/
noncomputable def sampInner (x : List ℝ) (n i : ℕ) (lastrun : List ℕ)
    (c : SampCounts) : List ℕ × SampCounts :=
  (List.range (n - i - 1)).foldl (fun st jj =>
    let j := jj + i + 1
    if |x.getD j 0 - x.getD i 0| < 0.2 then
      let run := lastrun.getD jj 0 + 1
      (st.1 ++ [run], sampMatchUpdate n j run st.2)
    else
      (st.1 ++ [0], st.2)) ([], c)

/-- The full backward sweep of `compute_samp_entropy`: outer loop over
`i = 0, ..., n - 2`, carrying the `lastrun` array (its updated prefix of
length `nj` plus the stale suffix, which is never read again) and the
counters. -/
noncomputable def sampSweep (x : List ℝ) (n : ℕ) : List ℕ × SampCounts :=
  (List.range (n - 1)).foldl (fun st i =>
    let inner := sampInner x n i st.1 st.2
    (inner.1 ++ st.1.drop (n - i - 1), inner.2))
    (List.replicate n 0, ⟨0, 0, 0, 0, 0, 0⟩)

/-- Per-channel `compute_samp_entropy`: transform the channel, run the
sweep, return `-log(a[-1] / b[mm - 2]) = -log(a[2] / b[1])`. -/
noncomputable def sampEnCh (xs : List ℝ) : ℝ :=
  -Real.log ((((sampSweep (sampXNew xs) xs.length).2).a2 : ℝ) /
    (((sampSweep (sampXNew xs) xs.length).2).b1 : ℝ))

/-- `compute_samp_entropy` on a whole signal matrix. -/
noncomputable def computeSampEntropy (data : List (List ℝ)) : List ℝ :=
  data.map sampEnCh

lemma sum_map_sub_const (xs : List ℝ) (c : ℝ) :
    (xs.map (fun v => v - c)).sum = xs.sum - xs.length * c := by
  induction xs with
  | nil => simp
  | cons a t ih =>
    simp only [List.map_cons, List.sum_cons, ih, List.length_cons]
    push_cast
    ring

lemma meanR_sampXNew (xs : List ℝ) : meanR (sampXNew xs) = 0 := by
  rcases List.eq_nil_or_concat xs with hnil | _
  · subst hnil; simp [sampXNew, meanR]
  · have hn : (xs.length : ℝ) ≠ 0 := by
      have : xs.length ≠ 0 := by
        intro h
        rename_i hc
        obtain ⟨l, a, rfl⟩ := hc
        simp at h
      exact_mod_cast this
    rw [meanR, sampXNew, List.length_map]
    simp only [div_eq_mul_inv]
    rw [List.sum_map_mul_right xs (fun v => v - meanR xs) (rmsR xs)⁻¹]
    have hsub : (xs.map (fun v => v - meanR xs)).sum = 0 := by
      rw [sum_map_sub_const, meanR, div_eq_mul_inv]
      field_simp
    rw [hsub, zero_mul, zero_mul]

lemma meanSq_nonneg (xs : List ℝ) : 0 ≤ meanSq xs := by
  rw [meanSq]
  apply div_nonneg
  · apply List.sum_nonneg
    intro v hv
    rcases List.mem_map.mp hv with ⟨w, _, rfl⟩
    positivity
  · positivity

lemma popVar_sampXNew (xs : List ℝ) :
    popVar (sampXNew xs) = popVar xs / meanSq xs := by
  rw [popVar, meanR_sampXNew, sampXNew, List.length_map, List.map_map]
  have hterm : ∀ v : ℝ,
      ((v - meanR xs) / rmsR xs - 0) ^ 2
        = (v - meanR xs) ^ 2 * (meanSq xs)⁻¹ := by
    intro v
    rw [sub_zero, div_pow, rmsR, Real.sq_sqrt (meanSq_nonneg xs),
      div_eq_mul_inv]
  simp only [Function.comp_def, hterm]
  rw [List.sum_map_mul_right xs (fun v => (v - meanR xs) ^ 2) (meanSq xs)⁻¹,
    popVar, div_eq_mul_inv, div_eq_mul_inv, div_eq_mul_inv]
  ring

/-- **C6, counterexample.**  On the channel `[1, 3]`, the transformed
signal is *not* z-normalized to unit population standard deviation: the
code divides by the root mean square `√5` instead of the population
standard deviation `1`, so the transformed channel's population variance
is `1/5`, not `1`. -/
theorem C6_counterexample : popVar (sampXNew [1, 3]) ≠ 1 := by
  rw [popVar_sampXNew]
  have h1 : popVar [(1 : ℝ), 3] = 1 := by
    simp only [popVar, meanR, List.sum_cons, List.sum_nil, List.map_cons,
      List.map_nil, List.length_cons, List.length_nil]
    norm_num
  have h2 : meanSq [(1 : ℝ), 3] = 5 := by
    simp only [meanSq, List.map_cons, List.map_nil, List.sum_cons,
      List.sum_nil, List.length_cons, List.length_nil]
    norm_num
  rw [h1, h2]
  norm_num

/-- **C6, amended.**  In `compute_samp_entropy` each channel is first
transformed to `(x - mean) / rms` where `rms = sqrt((Σ x²)/n)` is the root
mean square (not the population standard deviation): the transformed
channel has mean 0, but its population variance is
`popVar(x) / meanSq(x)`, which equals 1 only for zero-mean channels.  The
final per-channel value is `-log(a[last] / b[1])` over the length-3 count
arrays of the run-length sweep, exactly as the claim states. -/
theorem C6_amended (xs : List ℝ) :
    meanR (sampXNew xs) = 0 ∧
    popVar (sampXNew xs) = popVar xs / meanSq xs ∧
    sampEnCh xs = -Real.log ((((sampSweep (sampXNew xs) xs.length).2).a2 : ℝ) /
      (((sampSweep (sampXNew xs) xs.length).2).b1 : ℝ)) :=
  ⟨meanR_sampXNew xs, popVar_sampXNew xs, rfl⟩

/-! ## C7: the feature registry (`get_univariate_funcs`)

The registry maps feature-name strings to callables; here each callable
is represented by a tag naming the kernel it wraps together with the
sampling rate bound into it by `functools.partial` (or `none` when the
kernel is stored unbound). -/

/-- One tag per `compute_*` kernel defined in the source file. -/
inductive KernelTag where
  | meanK | varianceK | stdK | ptpK | skewnessK | kurtosisK
  | hurstExp | decorrTime | spectHjorthMobility | spectHjorthComplexity
  | appEntropy | sampEntropy | hjorthMobilityK | hjorthComplexityK
  | higuchiFd | katzFd | powFreqBandsK | zeroCross | lineLen
  | spectEntropyK | svdEntropy | svdFisherInfo | spectEdgeFreq
  | waveletCoefEnergyK | energyFreqBands
  deriving DecidableEq

/-- A registry value: the wrapped kernel and the sampling rate bound into
it by `partial`, if any. -/
structure RegistryEntry where
  kernel : KernelTag
  boundSfreq : Option ℚ
  deriving DecidableEq

/-- `get_univariate_funcs(sfreq)`: the name → callable mapping built by
the source, in insertion order. -/
def getUnivariateFuncs (sfreq : ℚ) : List (String × RegistryEntry) :=
  [("mean", ⟨.meanK, none⟩),
   ("variance", ⟨.varianceK, none⟩),
   ("std", ⟨.stdK, none⟩),
   ("ptp_amplitude", ⟨.ptpK, none⟩),
   ("skewness", ⟨.skewnessK, none⟩),
   ("kurtosis", ⟨.kurtosisK, none⟩),
   ("hurst_exp", ⟨.hurstExp, none⟩),
   ("decorr_time", ⟨.decorrTime, some sfreq⟩),
   ("hjorth_mobility_spect", ⟨.spectHjorthMobility, some sfreq⟩),
   ("hjorth_complexity_spect", ⟨.spectHjorthComplexity, some sfreq⟩),
   ("app_entropy", ⟨.appEntropy, none⟩),
   ("samp_entropy", ⟨.sampEntropy, none⟩),
   ("hjorth_mobility", ⟨.hjorthMobilityK, none⟩),
   ("hjorth_complexity", ⟨.hjorthComplexityK, none⟩),
   ("higuchi_fd", ⟨.higuchiFd, none⟩),
   ("katz_fd", ⟨.katzFd, none⟩),
   ("pow_freq_bands", ⟨.powFreqBandsK, some sfreq⟩),
   ("zero_cross", ⟨.zeroCross, none⟩),
   ("line_len", ⟨.lineLen, none⟩),
   ("spect_entropy", ⟨.spectEntropyK, some sfreq⟩),
   ("svd_entropy", ⟨.svdEntropy, none⟩),
   ("svd_fisher_info", ⟨.svdFisherInfo, none⟩),
   ("spect_edge_freq", ⟨.spectEdgeFreq, some sfreq⟩),
   ("wavelet_coef_energy", ⟨.waveletCoefEnergyK, none⟩)]

/-- Modelled from the spec: the feature names of the kernels/kernel
families enumerated in §4 (basic statistics, decorrelation time,
entropies, fractal dimensions, Hjorth time and spectral parameters, band
power, band **energy**, spectral entropy, spectral edge frequency, SVD
entropy and Fisher information, wavelet coefficient energy), one name per
kernel, using the source's naming convention. -/
def specSection4FeatureNames : List String :=
  ["mean", "variance", "std", "ptp_amplitude", "skewness", "kurtosis",
   "zero_cross", "line_len", "decorr_time", "app_entropy", "samp_entropy",
   "spect_entropy", "svd_entropy", "svd_fisher_info", "hurst_exp",
   "higuchi_fd", "katz_fd", "hjorth_mobility", "hjorth_complexity",
   "hjorth_mobility_spect", "hjorth_complexity_spect", "pow_freq_bands",
   "energy_freq_bands", "spect_edge_freq", "wavelet_coef_energy"]

/-- The 24 feature names the source actually registers. -/
def registeredFeatureNames : List String :=
  ["mean", "variance", "std", "ptp_amplitude", "skewness", "kurtosis",
   "hurst_exp", "decorr_time", "hjorth_mobility_spect",
   "hjorth_complexity_spect", "app_entropy", "samp_entropy",
   "hjorth_mobility", "hjorth_complexity", "higuchi_fd", "katz_fd",
   "pow_freq_bands", "zero_cross", "line_len", "spect_entropy",
   "svd_entropy", "svd_fisher_info", "spect_edge_freq",
   "wavelet_coef_energy"]

/-- The entries whose callable is built with `partial(..., sfreq)`. -/
def sfreqBoundFeatureNames : List String :=
  ["decorr_time", "hjorth_mobility_spect", "hjorth_complexity_spect",
   "pow_freq_bands", "spect_entropy", "spect_edge_freq"]

/-- **C7, counterexample.**  The band-energy kernel
(`compute_energy_freq_bands`, §4.9 "band energy") is defined in the
source but never added to the registry: `"energy_freq_bands"` is among
the §4 kernel families yet absent from the keys of
`get_univariate_funcs`. -/
theorem C7_counterexample :
    "energy_freq_bands" ∈ specSection4FeatureNames ∧
    "energy_freq_bands" ∉ (getUnivariateFuncs 256).map Prod.fst := by
  constructor
  · decide
  · decide

/-- **C7, amended.**  For every sampling rate, the registry returned by
`get_univariate_funcs` holds exactly one entry per kernel enumerated in
§4 **except band energy** (`compute_energy_freq_bands` is defined but not
registered): its keys are precisely the 24 names of
`registeredFeatureNames`, without duplicates, and each entry binds the
sampling rate exactly for the six spectral kernels that need it. -/
theorem C7_amended (sfreq : ℚ) :
    (getUnivariateFuncs sfreq).map Prod.fst = registeredFeatureNames ∧
    ((getUnivariateFuncs sfreq).map Prod.fst).Nodup ∧
    ∀ e ∈ getUnivariateFuncs sfreq,
      e.2.boundSfreq
        = if e.1 ∈ sfreqBoundFeatureNames then some sfreq else none := by
  refine ⟨rfl, ?_, ?_⟩
  · show registeredFeatureNames.Nodup
    decide
  · intro e he
    fin_cases he <;> rfl

/-- Witness for C7's amended theorem at the concrete sampling rate 256
and the registry entry of `decorr_time`. -/
theorem C7_amended_witness :
    (("decorr_time", RegistryEntry.mk KernelTag.decorrTime (some (256 : ℚ)))
        : String × RegistryEntry).2.boundSfreq
      = if ("decorr_time" : String) ∈ sfreqBoundFeatureNames
          then some (256 : ℚ) else none :=
  (C7_amended 256).2.2 _ (by decide)

/-! ## C8: decorrelation time
(`_unbiased_autocorr`, `compute_decorr_time`) -/

/-- `scipy.signal.fftconvolve(f, g, mode='full')`:
`c[k] = Σ_i f[i]·g[k-i]` for `k = 0, ..., |f|+|g|-2` (out-of-range terms
are zero). -/
def fullConv (f g : List ℚ) : List ℚ :=
  (List.range (f.length + g.length - 1)).map (fun k =>
    ∑ i ∈ Finset.range (k + 1), f.getD i 0 * g.getD (k - i) 0)

/-- The per-lag denominators of `_unbiased_autocorr`:
`s = m - |lag|` for `lag = -m, ..., m` with `m = n - 1`, clamped to `1`
wherever `s ≤ 0`. -/
def autocorrDenoms (n : ℕ) : List ℚ :=
  (List.range (2 * (n - 1) + 1)).map (fun k =>
    let lag : ℤ := (k : ℤ) - ((n : ℤ) - 1)
    let sv : ℤ := ((n : ℤ) - 1) - |lag|
    if sv ≤ 0 then (1 : ℚ) else (sv : ℚ))

/-- `_unbiased_autocorr(x)`: full correlation of `x` with its reversal,
divided pointwise by the clamped denominators. -/
def unbiasedAutocorr (x : List ℚ) : List ℚ :=
  List.zipWith (fun a b => a / b) (fullConv x x.reverse)
    (autocorrDenoms x.length)

/-- The non-negative-lag half `ac[(n_times - 1):]` of the unbiased
autocorrelation. -/
def halfAutocorr (x : List ℚ) : List ℚ :=
  (unbiasedAutocorr x).drop (x.length - 1)

/-- Per-channel `compute_decorr_time`: the first index of the half
autocorrelation whose value is `≤ 0` (the `np.any`/`np.argmax` pair),
divided by the sampling rate, or the sentinel `-1` when every value is
positive. -/
def computeDecorrTimeCh (sfreq : ℚ) (x : List ℚ) : ℚ :=
  match (halfAutocorr x).findIdx? (fun v => v ≤ 0) with
  | some idx => (idx : ℚ) / sfreq
  | none => -1

/-- `compute_decorr_time` on a whole signal matrix. -/
def computeDecorrTime (sfreq : ℚ) (data : List (List ℚ)) : List ℚ :=
  data.map (computeDecorrTimeCh sfreq)

/-- **C8.**  (i) Every clamped denominator of the unbiased
autocorrelation is at least `1` — `n - 1 - |lag|` is replaced by `1`
wherever it is `≤ 0`, so the autocorrelation never divides by zero.
(ii) When every value of the non-negative-lag half is positive,
`compute_decorr_time` returns the sentinel `-1`.  (iii) When index `i` is
the first non-positive value of that half, it returns `i / sfreq`. -/
theorem C8_theorem (sfreq : ℚ) (x : List ℚ) :
    (∀ d ∈ autocorrDenoms x.length, 1 ≤ d) ∧
    ((∀ v ∈ halfAutocorr x, 0 < v) → computeDecorrTimeCh sfreq x = -1) ∧
    (∀ i, (hi : i < (halfAutocorr x).length) →
      (halfAutocorr x).get ⟨i, hi⟩ ≤ 0 →
      (∀ j, (hj : j < i) → 0 < (halfAutocorr x).get ⟨j, Nat.lt_trans hj hi⟩) →
      computeDecorrTimeCh sfreq x = (i : ℚ) / sfreq) := by
  refine ⟨?_, ?_, ?_⟩
  · intro d hd
    rw [autocorrDenoms] at hd
    rcases List.mem_map.mp hd with ⟨k, _, rfl⟩
    by_cases hsv : ((x.length : ℤ) - 1) - |(k : ℤ) - ((x.length : ℤ) - 1)| ≤ 0
    · rw [if_pos hsv]
    · rw [if_neg hsv]
      push_neg at hsv
      have h1 : (1 : ℤ) ≤ ((x.length : ℤ) - 1) - |(k : ℤ) - ((x.length : ℤ) - 1)| := hsv
      exact_mod_cast h1
  · intro hpos
    have hnone : (halfAutocorr x).findIdx? (fun v => v ≤ 0) = none := by
      rw [List.findIdx?_eq_none_iff]
      intro v hv
      simpa using not_le.mpr (hpos v hv)
    rw [computeDecorrTimeCh, hnone]
  · intro i hi hle hfirst
    have hsome : (halfAutocorr x).findIdx? (fun v => v ≤ 0) = some i := by
      rw [List.findIdx?_eq_some_iff_getElem]
      refine ⟨hi, by simpa using hle, ?_⟩
      intro j hj
      simpa using not_le.mpr (hfirst j hj)
    rw [computeDecorrTimeCh, hsome]

lemma halfAutocorr_concrete : halfAutocorr [1, -1] = [2, -1] := by
  have hden : autocorrDenoms ([(1 : ℚ), -1]).length = [1, 1, 1] := by
    norm_num [autocorrDenoms, List.range_succ]
  have hconv : fullConv [(1 : ℚ), -1] ([(1 : ℚ), -1]).reverse = [-1, 2, -1] := by
    norm_num [fullConv, List.range_succ, Finset.sum_range_succ]
  rw [halfAutocorr, unbiasedAutocorr, hconv, hden]
  norm_num

lemma halfAutocorr_singleton : halfAutocorr [1] = [1] := by
  have hden : autocorrDenoms ([(1 : ℚ)]).length = [1] := by
    norm_num [autocorrDenoms, List.range_succ]
  have hconv : fullConv [(1 : ℚ)] ([(1 : ℚ)]).reverse = [1] := by
    norm_num [fullConv, List.range_succ, Finset.sum_range_succ]
  rw [halfAutocorr, unbiasedAutocorr, hconv, hden]
  norm_num

/-- Witness for C8.  On the channel `[1, -1]` with sampling rate `2` the
half autocorrelation is `[2, -1]`, whose first non-positive value sits at
index `1`, so the decorrelation time is `1/2`; the concrete denominator
`1` is at least `1`; and on the all-positive half autocorrelation of the
channel `[1]` the kernel returns the sentinel `-1`. -/
theorem C8_witness :
    (1 : ℚ) ≤ 1 ∧ computeDecorrTimeCh 2 [1, -1] = 1 / 2 ∧
    computeDecorrTimeCh 2 [1] = -1 := by
  refine ⟨?_, ?_, ?_⟩
  · refine (C8_theorem 2 [1, -1]).1 1 ?_
    have hden : autocorrDenoms ([(1 : ℚ), -1]).length = [1, 1, 1] := by
      norm_num [autocorrDenoms, List.range_succ]
    rw [hden]
    simp
  · have h := (C8_theorem 2 [1, -1]).2.2 1
      (by rw [halfAutocorr_concrete]; norm_num)
      (by simp [halfAutocorr_concrete])
      (by intro j hj
          interval_cases j
          simp [halfAutocorr_concrete])
    simpa using h
  · refine (C8_theorem 2 [1]).2.1 ?_
    intro v hv
    rw [halfAutocorr_singleton] at hv
    simp only [List.mem_singleton] at hv
    rw [hv]
    norm_num

/-! ## C9: the rescaled-range guard of `compute_hurst_exponent` -/

/-- `_slope_lstsq(x, y)`: closed-form ordinary-least-squares slope. -/
noncomputable def slopeLstsq (x y : List ℝ) : ℝ :=
  ((x.length : ℝ) * (List.zipWith (fun a b => a * b) x y).sum
      - x.sum * y.sum)
    / ((x.length : ℝ) * (x.map (fun v => v ^ 2)).sum - x.sum ^ 2)

/-- `_accumulate_std(x)`: `r[0] = 0` and, for `j ≥ 1`,
`r[j] = sqrt((Σ_{k ≤ j} (x[k] - mean(x[0..j]))²) / j)` — the running
unbiased standard deviation of each prefix. -/
noncomputable def accumulateStd (x : List ℝ) : List ℝ :=
  (List.range x.length).map (fun j =>
    if j = 0 then 0
    else
      Real.sqrt ((∑ k ∈ Finset.range (j + 1),
        (x.getD k 0
          - (∑ l ∈ Finset.range (j + 1), x.getD l 0) / ((j : ℝ) + 1)) ^ 2)
        / (j : ℝ)))

/-- The guarded divisors of `compute_hurst_exponent`:
`s = _accumulate_std(data[j])[1:]`, then `s[s == 0] = 1e-12`. -/
noncomputable def hurstGuardedS (x : List ℝ) : List ℝ :=
  ((accumulateStd x).drop 1).map (fun v => if v = 0 then 1e-12 else v)

/-- `np.cumsum`. -/
def cumsumR (xs : List ℝ) : List ℝ := (xs.scanl (· + ·) 0).tail

/-- `np.maximum.accumulate`: running maxima. -/
def runningMax : List ℝ → List ℝ
  | [] => []
  | h :: t => t.scanl max h

/-- `np.minimum.accumulate`: running minima. -/
def runningMin : List ℝ → List ℝ
  | [] => []
  | h :: t => t.scanl min h

/-- Per-channel `compute_hurst_exponent`: regress `log(r / s)` (with the
guarded divisors) against `log(1), ..., log(n - 1)`. -/
noncomputable def hurstExponentCh (ch : List ℝ) : ℝ :=
  let z := cumsumR (ch.map (fun v => v - meanR ch))
  let r := (List.zipWith (fun a b => a - b) (runningMax z) (runningMin z)).drop 1
  let yReg := List.zipWith (fun a b => Real.log (a / b)) r (hurstGuardedS ch)
  let xReg := (List.range yReg.length).map (fun i => Real.log ((i : ℝ) + 1))
  slopeLstsq xReg yReg

/-- `compute_hurst_exponent` on a whole signal matrix. -/
noncomputable def computeHurstExponent (data : List (List ℝ)) : List ℝ :=
  data.map hurstExponentCh

/-- **C9.**  Every divisor used to form `log(r / s)` in
`compute_hurst_exponent` is strictly positive: running standard
deviations are non-negative, and any that equal `0` are replaced by
`1e-12` before the division, so the quotient `r / s` never divides by
zero. -/
theorem C9_theorem (x : List ℝ) : ∀ v ∈ hurstGuardedS x, 0 < v := by
  intro v hv
  rw [hurstGuardedS] at hv
  rcases List.mem_map.mp hv with ⟨w, hw, rfl⟩
  have hw0 : 0 ≤ w := by
    have hw1 : w ∈ accumulateStd x := List.mem_of_mem_drop hw
    rw [accumulateStd] at hw1
    rcases List.mem_map.mp hw1 with ⟨j, _, rfl⟩
    by_cases hj : j = 0
    · rw [if_pos hj]
    · rw [if_neg hj]
      exact Real.sqrt_nonneg _
  by_cases hz : w = 0
  · rw [if_pos hz]
    norm_num
  · rw [if_neg hz]
    exact lt_of_le_of_ne hw0 (Ne.symm hz)

lemma accumulateStd_pair_ones : accumulateStd [1, 1] = [0, 0] := by
  rw [accumulateStd]
  norm_num [List.range_succ, Finset.sum_range_succ]

lemma hurstGuardedS_pair_ones : hurstGuardedS [1, 1] = [1e-12] := by
  rw [hurstGuardedS, accumulateStd_pair_ones]
  norm_num

/-- Witness for C9: on the constant channel `[1, 1]` the (running) second
prefix has standard deviation `0`, which is guarded to `1e-12`; the
theorem instantiated there yields `0 < 1e-12`. -/
theorem C9_witness : (0 : ℝ) < 1e-12 :=
  C9_theorem [1, 1] 1e-12 (by rw [hurstGuardedS_pair_ones]; simp)

/-! ## C10: spectral edge frequency (`compute_spect_edge_freq`) -/

/-- `np.cumsum` over the rationals. -/
def cumsumQ (xs : List ℚ) : List ℚ := (xs.scanl (· + ·) 0).tail

/-- The effective percentile fractions of `compute_spect_edge_freq`:
a supplied `edge` list is divided entrywise by `100` (entries are
percentages), while the default used for `edge = None` is the fraction
`[0.5]` directly. -/
def edgeFractions (edge : Option (List ℚ)) : List ℚ :=
  match edge with
  | none => [1 / 2]
  | some es => es.map (fun e => e / 100)

/-- `compute_spect_edge_freq`, embedded as a function of the external
power-spectrum output `(ps, freqs)`.  `none` models the `IndexError`
raised by `np.where(freqs >= ref_freq)[0][0]` when no frequency reaches
the reference frequency. -/
def computeSpectEdgeFreq (sfreq : ℚ) (freqs : List ℚ) (ps : List (List ℚ))
    (refFreq : Option ℚ) (edge : Option (List ℚ)) : Option (List ℚ) :=
  let refF := refFreq.getD (sfreq / 2)
  match freqs.findIdx? (fun f => refF ≤ f) with
  | none => none
  | some idxRef =>
    some ((ps.map (fun row =>
      (edgeFractions edge).map (fun p =>
        match (cumsumQ row).findIdx?
            (fun c => p * (row.take (idxRef + 1)).sum ≤ c) with
        | some idx => freqs.getD idx 0
        | none => -1))).flatten)

/-- **C10.**  An explicitly supplied `edge` list is interpreted as
percentages (each entry divided by 100) while the `None` default is the
fraction `0.5` directly: `edge = [50]` yields exactly the default's
result on every input, whereas `edge = [0.5]` uses the fraction `1/200`
(the 0.5% edge frequency) and on the concrete spectrum
`freqs = [0, 1, 2]`, `ps = [[1, 1, 1]]`, `sfreq = 4` returns `[0]`,
different from the default's `[1]` (the median-power edge). -/
theorem C10_theorem (sfreq : ℚ) (freqs : List ℚ) (ps : List (List ℚ))
    (refFreq : Option ℚ) :
    edgeFractions (some [50]) = edgeFractions none ∧
    edgeFractions (some [1 / 2]) = [1 / 200] ∧
    computeSpectEdgeFreq sfreq freqs ps refFreq (some [50])
      = computeSpectEdgeFreq sfreq freqs ps refFreq none ∧
    computeSpectEdgeFreq 4 [0, 1, 2] [[1, 1, 1]] none (some [1 / 2])
      = some [0] ∧
    computeSpectEdgeFreq 4 [0, 1, 2] [[1, 1, 1]] none none = some [1] := by
  have hE : edgeFractions (some [50]) = edgeFractions none := by
    norm_num [edgeFractions]
  have hfreqs : ([0, 1, 2] : List ℚ).findIdx?
      (fun f => Option.getD none ((4 : ℚ) / 2) ≤ f) = some 2 := by
    rw [List.findIdx?_eq_some_iff_getElem]
    refine ⟨by norm_num, by norm_num, ?_⟩
    intro j hj
    interval_cases j <;> norm_num
  have hcum : cumsumQ [1, 1, 1] = [1, 2, 3] := by
    norm_num [cumsumQ, List.scanl]
  have htake : (([1, 1, 1] : List ℚ).take 3).sum = 3 := by norm_num
  refine ⟨hE, by norm_num [edgeFractions], ?_, ?_, ?_⟩
  · rw [computeSpectEdgeFreq, computeSpectEdgeFreq, hE]
  · rw [computeSpectEdgeFreq, hfreqs]
    simp only [List.map_cons, List.map_nil, hcum, htake,
      show edgeFractions (some [1 / 2]) = [1 / 200] by norm_num [edgeFractions]]
    have hfind : ([1, 2, 3] : List ℚ).findIdx?
        (fun c => (1 : ℚ) / 200 * 3 ≤ c) = some 0 := by
      rw [List.findIdx?_eq_some_iff_getElem]
      refine ⟨by norm_num, by norm_num, ?_⟩
      intro j hj
      omega
    rw [hfind]
    simp
  · rw [computeSpectEdgeFreq, hfreqs]
    simp only [List.map_cons, List.map_nil, hcum, htake,
      show edgeFractions none = [1 / 2] from rfl]
    have hfind : ([1, 2, 3] : List ℚ).findIdx?
        (fun c => (1 : ℚ) / 2 * 3 ≤ c) = some 1 := by
      rw [List.findIdx?_eq_some_iff_getElem]
      refine ⟨by norm_num, by norm_num, ?_⟩
      intro j hj
      interval_cases j
      norm_num
    rw [hfind]
    simp

end MneFeatures
